import Mathlib

/-!
Verification of the turn-taking scheduler pattern of this repository.

The subject programs are the pthread mutex/condition-variable snippets in
`01_LSP/Class/06_Thread/`:

* `09_Print_Odd_even.c` — two threads (`print_odd`, `print_even`) alternate
  printing a shared counter `counter` (initially 1) up to `MAX = 100`,
  gated by the flag `is_odd_turn` and a condition variable; each completed
  step does `counter++`, flips the turn flag, and calls
  `pthread_cond_signal` (notify-one); the terminal branch
  (`counter > MAX`) unlocks and breaks without signalling.
* `12_ABCDabcdWiteFileSync.c` — the same protocol instantiated with a
  `turn` flag (0/1) and per-character steps.
* `10_Print_Odd_even.c` — a busy-spin variant of the odd/even printer
  with no condition variable: each thread locks, exits when
  `counter > MAX`, acts only when the counter's parity matches its role,
  and otherwise unlocks and loops.
* `11_ABCDabcdWiteFile.c` / `12_ABCDabcdWiteFileSync.c` `main` — startup
  sequences (`fopen`, `pthread_mutex_init`, `pthread_cond_init`,
  `pthread_create`).

The spec generalizes the N = 2 protocol of 09/12 to N roles with
round-robin ownership (`current_owner := (my_role + 1) mod N`).  The model
below embeds the thread loop of 09/12 generalized along that role
arithmetic, keeping the code's notification discipline exactly: each
completed step issues one `pthread_cond_signal` (notify-one, which wakes
one currently blocked waiter, or nothing if no thread is waiting), and
the terminal exit path issues no notification.

State components (`TurnSt`):
* `pos`    — the shared step counter (`counter` in 09, step index in 12),
  starting at 1;
* `owner`  — which role may act next (encodes `is_odd_turn`/`turn`:
  role 0 = odd/capital thread, owner advances round-robin);
* `phases` — one entry per thread: `idle` (running, not inside the
  critical section / about to reacquire the lock), `blocked` (suspended
  in `pthread_cond_wait`), `done` (exited its loop);
* `trace`  — the (role, step-index) pairs emitted so far, in completion
  order;
* `events` — the notifications issued so far (`one` for
  `pthread_cond_signal`; `all` would be `pthread_cond_broadcast`, which
  the source never calls).

A transition (`stepFn`) models one complete pass through the critical
section by one thread (the whole loop body runs under the mutex, so this
atomic granularity is faithful): the thread re-evaluates the while-guard
`¬(owner = me) ∧ pos ≤ limit`; it blocks if the guard holds, exits if
`pos > limit`, and otherwise acts: emits `(me, pos)`, increments `pos`,
advances `owner`, and signals — waking exactly one blocked thread when
one exists.  A separate `spur` transition models a spurious wake-up of a
blocked thread, which simply returns it to the lock-competition loop.
-/

/-- Control location of one participant thread of `09_Print_Odd_even.c` /
`12_ABCDabcdWiteFileSync.c`: running outside the critical section,
suspended in `pthread_cond_wait`, or exited. -/
inductive Phase where
  | idle
  | blocked
  | done
  deriving DecidableEq, Repr

/-- Kind of a condition-variable notification: `one` is
`pthread_cond_signal`, `all` is `pthread_cond_broadcast`. -/
inductive NotifyKind where
  | one
  | all
  deriving DecidableEq, Repr

/-- The shared TurnState of the scheduler plus the thread phases and the
observable histories (emitted steps and issued notifications). -/
structure TurnSt where
  pos : Nat
  owner : Nat
  phases : List Phase
  trace : List (Nat × Nat)
  events : List NotifyKind
  deriving DecidableEq, Repr

/-- Initial state: `counter = 1`, odd/role-0 thread owns the turn
(`is_odd_turn = true` in 09, `turn = 0` in 12), all N threads running,
nothing emitted. -/
def init (N : Nat) : TurnSt :=
  ⟨1, 0, List.replicate N Phase.idle, [], []⟩

/-- Scheduler (adversary) choice: `check t w` lets thread `t` run one
pass through the critical section, with `w` the waiter woken if that pass
signals (`pthread_cond_signal` wakes one blocked thread when any are
blocked, none otherwise); `spur t` is a spurious wake-up of thread `t`. -/
inductive Choice where
  | check (t : Nat) (wake : Option Nat)
  | spur (t : Nat)
  deriving DecidableEq, Repr

/-- Whether some thread is suspended in `pthread_cond_wait`. -/
def hasBlocked (s : TurnSt) : Bool :=
  s.phases.any (fun ph => ph = Phase.blocked)

/-- Result state of a completed step by thread `t` (lines 25–29 of 09:
emit, `counter++`, flip turn — generalized to `(t + 1) % N` — and
`pthread_cond_signal`); `ph` is the phase list after the signal's wake. -/
def actSt (t : Nat) (s : TurnSt) (ph : List Phase) : TurnSt :=
  ⟨s.pos + 1, (t + 1) % s.phases.length, ph,
    s.trace ++ [(t, s.pos)], s.events ++ [NotifyKind.one]⟩

/-- One transition of the system.  `check t w`: thread `t` acquires the
lock and re-evaluates its guard: if `pos > limit` it exits (lines 20–23
of 09, no signal); if it owns the turn it acts via `actSt`, waking the
blocked thread `w` (the signal must wake one waiter when any is blocked);
otherwise it suspends in `pthread_cond_wait` (lines 17–18).  `spur t`:
a spurious wake-up returns a blocked thread to the competition for the
lock (it will re-check its guard before acting). -/
def stepFn (limit : Nat) (c : Choice) (s : TurnSt) : Option TurnSt :=
  match c with
  | Choice.check t w =>
    match s.phases[t]? with
    | some Phase.idle =>
      if limit < s.pos then
        match w with
        | none => some { s with phases := s.phases.set t Phase.done }
        | some _ => none
      else if s.owner = t then
        match w with
        | some u =>
          if s.phases[u]? = some Phase.blocked then
            some (actSt t s (s.phases.set u Phase.idle))
          else none
        | none =>
          if hasBlocked s then none
          else some (actSt t s s.phases)
      else
        match w with
        | none => some { s with phases := s.phases.set t Phase.blocked }
        | some _ => none
    | _ => none
  | Choice.spur t =>
    if s.phases[t]? = some Phase.blocked then
      some { s with phases := s.phases.set t Phase.idle }
    else none

/-- A real transition: some thread runs its critical section (no
spurious wake-ups).  Liveness may not rely on spurious wake-ups, so
stuckness is judged against these. -/
def StepR (limit : Nat) (s s' : TurnSt) : Prop :=
  ∃ t w, stepFn limit (Choice.check t w) s = some s'

/-- Any transition, spurious wake-ups included. -/
def StepC (limit : Nat) (s s' : TurnSt) : Prop :=
  ∃ c, stepFn limit c s = some s'

/-- Reachability from the initial state under any interleaving,
spurious wake-ups included. -/
def ReachC (N limit : Nat) (s : TurnSt) : Prop :=
  Relation.ReflTransGen (StepC limit) (init N) s

/-- All participant threads have exited their loops. -/
def AllDone (s : TurnSt) : Prop :=
  ∀ ph ∈ s.phases, ph = Phase.done

instance (s : TurnSt) : Decidable (AllDone s) := by
  unfold AllDone; infer_instance

/-- No real step is enabled (a blocked thread could at most wake
spuriously, which liveness may not rely on). -/
def StuckR (limit : Nat) (s : TurnSt) : Prop :=
  ∀ s', ¬ StepR limit s s'

/-- Run a concrete schedule (used to exhibit concrete executions). -/
def runChoices (limit : Nat) (cs : List Choice) (s : TurnSt) : Option TurnSt :=
  match cs with
  | [] => some s
  | c :: rest =>
    match stepFn limit c s with
    | some s' => runChoices limit rest s'
    | none => none

/-- The round-robin reference trace of the first `m` steps:
step `k + 1` (1-based) is executed by role `k % N`. -/
def rrSeq (N m : Nat) : List (Nat × Nat) :=
  (List.range m).map (fun k => (k % N, k + 1))

theorem runChoices_reach {limit : Nat} :
    ∀ (cs : List Choice) (s s' : TurnSt),
      runChoices limit cs s = some s' →
      Relation.ReflTransGen (StepC limit) s s' := by
  intro cs
  induction cs with
  | nil =>
    intro s s' h
    simp only [runChoices] at h
    cases h
    exact Relation.ReflTransGen.refl
  | cons c rest ih =>
    intro s s' h
    simp only [runChoices] at h
    cases hc : stepFn limit c s with
    | none => rw [hc] at h; cases h
    | some s1 =>
      rw [hc] at h
      exact Relation.ReflTransGen.head ⟨c, hc⟩ (ih s1 s' h)

/-- Inversion of a `check` transition into its three cases: terminal
exit, completed step (with or without a waiter to wake), or suspension. -/
theorem stepFn_check_inv {limit t : Nat} {w : Option Nat} {s s' : TurnSt}
    (h : stepFn limit (Choice.check t w) s = some s') :
    s.phases[t]? = some Phase.idle ∧
    ((limit < s.pos ∧ w = none ∧
        s' = { s with phases := s.phases.set t Phase.done }) ∨
     (s.pos ≤ limit ∧ s.owner = t ∧
       ((∃ u, w = some u ∧ s.phases[u]? = some Phase.blocked ∧
           s' = actSt t s (s.phases.set u Phase.idle)) ∨
        (w = none ∧ hasBlocked s = false ∧ s' = actSt t s s.phases))) ∨
     (s.pos ≤ limit ∧ s.owner ≠ t ∧ w = none ∧
       s' = { s with phases := s.phases.set t Phase.blocked })) := by
  simp only [stepFn] at h
  cases hp : s.phases[t]? with
  | none => rw [hp] at h; dsimp only at h; cases h
  | some ph =>
    rw [hp] at h
    cases ph with
    | blocked => dsimp only at h; cases h
    | done => dsimp only at h; cases h
    | idle =>
      dsimp only at h
      refine ⟨rfl, ?_⟩
      by_cases hlim : limit < s.pos
      · rw [if_pos hlim] at h
        cases w with
        | none => dsimp only at h; cases h; exact Or.inl ⟨hlim, rfl, rfl⟩
        | some u => dsimp only at h; cases h
      · rw [if_neg hlim] at h
        by_cases hown : s.owner = t
        · rw [if_pos hown] at h
          cases w with
          | some u =>
            dsimp only at h
            by_cases hu : s.phases[u]? = some Phase.blocked
            · rw [if_pos hu] at h
              cases h
              exact Or.inr (Or.inl ⟨by omega, hown, Or.inl ⟨u, rfl, hu, rfl⟩⟩)
            · rw [if_neg hu] at h; cases h
          | none =>
            dsimp only at h
            by_cases hb : hasBlocked s
            · rw [if_pos hb] at h; cases h
            · rw [if_neg hb] at h
              cases h
              exact Or.inr (Or.inl ⟨by omega, hown,
                Or.inr ⟨rfl, Bool.eq_false_iff.mpr hb, rfl⟩⟩)
        · rw [if_neg hown] at h
          cases w with
          | some u => dsimp only at h; cases h
          | none =>
            dsimp only at h
            cases h
            exact Or.inr (Or.inr ⟨by omega, hown, rfl, rfl⟩)

/-- Inversion of a spurious wake-up. -/
theorem stepFn_spur_inv {limit t : Nat} {s s' : TurnSt}
    (h : stepFn limit (Choice.spur t) s = some s') :
    s.phases[t]? = some Phase.blocked ∧
    s' = { s with phases := s.phases.set t Phase.idle } := by
  simp only [stepFn] at h
  by_cases hb : s.phases[t]? = some Phase.blocked
  · rw [if_pos hb] at h; cases h; exact ⟨hb, rfl⟩
  · rw [if_neg hb] at h; cases h

/-- State invariant of the scheduler, for any number of roles:
the shared counter stays within `[1, limit + 1]`, the owner is the role
of the next step in round-robin order, the emitted trace is exactly the
round-robin prefix determined by the counter, every notification issued
so far is a notify-one (`pthread_cond_signal`), and a thread exits only
past the limit. -/
structure SchedInv (N limit : Nat) (s : TurnSt) : Prop where
  len : s.phases.length = N
  pos_ge : 1 ≤ s.pos
  pos_le : s.pos ≤ limit + 1
  owner_eq : s.owner = (s.pos - 1) % N
  trace_eq : s.trace = rrSeq N (s.pos - 1)
  events_eq : s.events = List.replicate (s.pos - 1) NotifyKind.one
  done_pos : ∀ t : Nat, s.phases[t]? = some Phase.done → limit < s.pos

theorem inv_init (N limit : Nat) : SchedInv N limit (init N) := by
  refine ⟨List.length_replicate N Phase.idle, le_refl 1,
    Nat.succ_le_succ (Nat.zero_le limit), (Nat.zero_mod N).symm, rfl, rfl, ?_⟩
  intro t h
  have hm : Phase.done ∈ List.replicate N Phase.idle :=
    List.mem_iff_getElem?.mpr ⟨t, h⟩
  cases List.eq_of_mem_replicate hm

theorem inv_step {N limit : Nat} {s s' : TurnSt}
    (hinv : SchedInv N limit s) (h : StepC limit s s') : SchedInv N limit s' := by
  obtain ⟨c, hc⟩ := h
  cases c with
  | spur t =>
    obtain ⟨hb, rfl⟩ := stepFn_spur_inv hc
    refine ⟨by simpa using hinv.len, hinv.pos_ge, hinv.pos_le,
      hinv.owner_eq, hinv.trace_eq, hinv.events_eq, ?_⟩
    intro t' h'
    by_cases ht : t = t'
    · subst ht
      have hlen : t < s.phases.length := (List.getElem?_eq_some.mp hb).1
      rw [List.getElem?_set_eq_of_lt Phase.idle hlen] at h'
      cases h'
    · rw [List.getElem?_set_ne ht] at h'
      exact hinv.done_pos t' h'
  | check t w =>
    obtain ⟨hidle, hcase⟩ := stepFn_check_inv hc
    have htlen : t < s.phases.length := (List.getElem?_eq_some.mp hidle).1
    rcases hcase with ⟨hlim, -, rfl⟩ | ⟨hlim, hown, hact⟩ | ⟨hlim, -, -, rfl⟩
    · -- terminal exit: only the exiting thread's phase changes
      refine ⟨by simpa using hinv.len, hinv.pos_ge, hinv.pos_le,
        hinv.owner_eq, hinv.trace_eq, hinv.events_eq, ?_⟩
      intro t' h'
      by_cases ht : t = t'
      · exact hlim
      · rw [List.getElem?_set_ne ht] at h'
        exact hinv.done_pos t' h'
    · -- completed step
      have hge := hinv.pos_ge
      have hposN : s.pos - 1 + 1 = s.pos := by omega
      have howner : (t + 1) % s.phases.length = (s.pos + 1 - 1) % N := by
        have ht' : t = (s.pos - 1) % N := hown ▸ hinv.owner_eq
        rw [hinv.len, ht']
        calc ((s.pos - 1) % N + 1) % N = (s.pos - 1 + 1) % N :=
              Nat.mod_add_mod (s.pos - 1) N 1
          _ = (s.pos + 1 - 1) % N := by rw [hposN, Nat.add_sub_cancel]
      have htrace : s.trace ++ [(t, s.pos)] = rrSeq N (s.pos + 1 - 1) := by
        have he : s.pos + 1 - 1 = (s.pos - 1) + 1 := by omega
        rw [he, hinv.trace_eq]
        unfold rrSeq
        rw [List.range_succ, List.map_append]
        simp only [List.map_cons, List.map_nil]
        have ht' : t = (s.pos - 1) % N := hown ▸ hinv.owner_eq
        rw [ht', hposN]
      have hevents : s.events ++ [NotifyKind.one] =
          List.replicate (s.pos + 1 - 1) NotifyKind.one := by
        have he : s.pos + 1 - 1 = (s.pos - 1) + 1 := by omega
        rw [he, hinv.events_eq, List.replicate_succ']
      rcases hact with ⟨u, -, hu, rfl⟩ | ⟨-, -, rfl⟩
      · have hulen : u < s.phases.length := (List.getElem?_eq_some.mp hu).1
        refine ⟨?_, ?_, ?_, howner, htrace, hevents, ?_⟩
        · simp only [actSt, List.length_set]
          exact hinv.len
        · have := hinv.pos_ge
          simp only [actSt]
          omega
        · simp only [actSt]
          omega
        · intro t' h'
          simp only [actSt] at h'
          by_cases htu : u = t'
          · subst htu
            rw [List.getElem?_set_eq_of_lt Phase.idle hulen] at h'
            cases h'
          · rw [List.getElem?_set_ne htu] at h'
            have := hinv.done_pos t' h'
            omega
      · refine ⟨hinv.len, ?_, ?_, howner, htrace, hevents, ?_⟩
        · have := hinv.pos_ge
          simp only [actSt]
          omega
        · simp only [actSt]
          omega
        intro t' h'
        simp only [actSt] at h'
        have := hinv.done_pos t' h'
        omega
    · -- suspension
      refine ⟨by simpa using hinv.len, hinv.pos_ge, hinv.pos_le,
        hinv.owner_eq, hinv.trace_eq, hinv.events_eq, ?_⟩
      intro t' h'
      by_cases ht : t = t'
      · subst ht
        rw [List.getElem?_set_eq_of_lt Phase.blocked htlen] at h'
        cases h'
      · rw [List.getElem?_set_ne ht] at h'
        exact hinv.done_pos t' h'

theorem reach_inv {N limit : Nat} {s : TurnSt}
    (h : ReachC N limit s) : SchedInv N limit s := by
  induction h with
  | refl => exact inv_init N limit
  | tail _ hstep ih => exact inv_step ih hstep

/-- Two-thread invariant (09 and 12 both run exactly two threads): a
thread suspended in `pthread_cond_wait` never holds the turn and
suspends only while steps remain.  Together with `owner < 2` this means
at most one thread is blocked at a time, so the single
`pthread_cond_signal` of a completed step reaches the only waiter. -/
def Blocked2Inv (limit : Nat) (s : TurnSt) : Prop :=
  ∀ t : Nat, s.phases[t]? = some Phase.blocked → s.owner ≠ t ∧ s.pos ≤ limit

theorem hasBlocked_false {s : TurnSt} (h : hasBlocked s = false)
    {t : Nat} (h' : s.phases[t]? = some Phase.blocked) : False := by
  have hm : Phase.blocked ∈ s.phases := List.mem_iff_getElem?.mpr ⟨t, h'⟩
  have ha : s.phases.any (fun ph => ph = Phase.blocked) = true :=
    List.any_eq_true.mpr ⟨Phase.blocked, hm, by simp⟩
  rw [hasBlocked] at h
  rw [ha] at h
  cases h

theorem inv2_step {limit : Nat} {s s' : TurnSt}
    (hinv : SchedInv 2 limit s) (h2 : Blocked2Inv limit s)
    (h : StepC limit s s') : Blocked2Inv limit s' := by
  obtain ⟨c, hc⟩ := h
  cases c with
  | spur t =>
    obtain ⟨hb, rfl⟩ := stepFn_spur_inv hc
    intro t' h'
    by_cases ht : t = t'
    · subst ht
      rw [List.getElem?_set_eq_of_lt Phase.idle
        ((List.getElem?_eq_some.mp hb).1)] at h'
      cases h'
    · rw [List.getElem?_set_ne ht] at h'
      exact h2 t' h'
  | check t w =>
    obtain ⟨hidle, hcase⟩ := stepFn_check_inv hc
    have htlen : t < s.phases.length := (List.getElem?_eq_some.mp hidle).1
    rcases hcase with ⟨hlim, -, rfl⟩ | ⟨hlim, hown, hact⟩ | ⟨hlim, hown, -, rfl⟩
    · -- terminal exit: nobody can be blocked here, since a blocked thread
      -- would force `pos ≤ limit`
      intro t' h'
      by_cases ht : t = t'
      · subst ht
        rw [List.getElem?_set_eq_of_lt Phase.done htlen] at h'
        cases h'
      · rw [List.getElem?_set_ne ht] at h'
        have := (h2 t' h').2
        omega
    · -- completed step
      rcases hact with ⟨u, -, hu, rfl⟩ | ⟨-, hnb, rfl⟩
      · intro t' h'
        simp only [actSt] at h'
        have hulen : u < s.phases.length := (List.getElem?_eq_some.mp hu).1
        by_cases htu : u = t'
        · subst htu
          rw [List.getElem?_set_eq_of_lt Phase.idle hulen] at h'
          cases h'
        · rw [List.getElem?_set_ne htu] at h'
          -- t, u, t' would be three distinct indices below 2
          have ht'own := (h2 t' h').1
          have huown := (h2 u hu).1
          have ht'len : t' < s.phases.length := (List.getElem?_eq_some.mp h').1
          have hlen2 := hinv.len
          exfalso
          omega
      · intro t' h'
        simp only [actSt] at h'
        exact (hasBlocked_false hnb h').elim
    · -- suspension: the suspending thread satisfies the invariant by its
      -- own guard, the others by assumption
      intro t' h'
      by_cases ht : t = t'
      · subst ht
        exact ⟨hown, hlim⟩
      · rw [List.getElem?_set_ne ht] at h'
        exact h2 t' h'

theorem reach_inv2 {limit : Nat} {s : TurnSt}
    (h : ReachC 2 limit s) : Blocked2Inv limit s := by
  induction h with
  | refl =>
    intro t h'
    have hm := List.mem_iff_getElem?.mpr ⟨t, h'⟩
    cases List.eq_of_mem_replicate hm
  | tail hab hstep ih => exact inv2_step (reach_inv hab) ih hstep

/-- An idle thread always has an enabled real transition: it can run its
critical section and exit, act, or suspend. -/
theorem idle_enabled {limit t : Nat} {s : TurnSt}
    (h : s.phases[t]? = some Phase.idle) : ∃ s', StepR limit s s' := by
  by_cases hlim : limit < s.pos
  · refine ⟨{ s with phases := s.phases.set t Phase.done }, t, none, ?_⟩
    simp only [stepFn, h]
    rw [if_pos hlim]
  · by_cases hown : s.owner = t
    · by_cases hb : hasBlocked s
      · obtain ⟨ph, hm, hph⟩ := List.any_eq_true.mp hb
        have hph' : ph = Phase.blocked := by simpa using hph
        subst hph'
        obtain ⟨u, hu⟩ := List.mem_iff_getElem?.mp hm
        refine ⟨actSt t s (s.phases.set u Phase.idle), t, some u, ?_⟩
        simp only [stepFn, h]
        rw [if_neg hlim, if_pos hown, if_pos hu]
      · refine ⟨actSt t s s.phases, t, none, ?_⟩
        simp only [stepFn, h]
        rw [if_neg hlim, if_pos hown, if_neg hb]
    · refine ⟨{ s with phases := s.phases.set t Phase.blocked }, t, none, ?_⟩
      simp only [stepFn, h]
      rw [if_neg hlim, if_neg hown]

/-- Deadlock-freedom of the two-thread scheduler: in any reachable state
where no real transition is enabled, both threads have exited.  (This
fails for three or more threads, see the counterexample below.) -/
theorem stuck_allDone {limit : Nat} {s : TurnSt}
    (hr : ReachC 2 limit s) (hstuck : StuckR limit s) : AllDone s := by
  have hinv := reach_inv hr
  have h2 := reach_inv2 hr
  have hnoidle : ∀ t : Nat, s.phases[t]? ≠ some Phase.idle := by
    intro t ht
    obtain ⟨s', hs'⟩ := @idle_enabled limit t s ht
    exact hstuck s' hs'
  have hnoblocked : ∀ t : Nat, s.phases[t]? ≠ some Phase.blocked := by
    intro t ht
    obtain ⟨hownt, hpos⟩ := h2 t ht
    have htlen : t < s.phases.length := (List.getElem?_eq_some.mp ht).1
    have hlen := hinv.len
    have hlt : s.owner < s.phases.length := by
      rw [hinv.owner_eq, hlen]
      exact Nat.mod_lt _ (by omega)
    have hsome : s.phases[s.owner]? = some s.phases[s.owner] :=
      List.getElem?_eq_getElem hlt
    cases hph : s.phases[s.owner] with
    | idle => exact hnoidle s.owner (hph ▸ hsome)
    | blocked => exact (h2 s.owner (hph ▸ hsome)).1 rfl
    | done =>
      have := hinv.done_pos s.owner (hph ▸ hsome)
      omega
  intro ph hm
  obtain ⟨t, ht⟩ := List.mem_iff_getElem?.mp hm
  cases ph with
  | idle => exact (hnoidle t ht).elim
  | blocked => exact (hnoblocked t ht).elim
  | done => rfl

/-- Rank of a thread phase in the termination measure. -/
def phRank : Phase → Nat
  | Phase.idle => 2
  | Phase.blocked => 1
  | Phase.done => 0

/-- Termination measure: every real transition strictly decreases it, so
every execution without spurious wake-ups performs a bounded number of
transitions. -/
def sysMeasure (limit : Nat) (s : TurnSt) : Nat :=
  3 * (limit + 1 - s.pos) + (s.phases.map phRank).sum

theorem sum_map_set (f : Phase → Nat) :
    ∀ (l : List Phase) (i : Nat) (a b : Phase), l[i]? = some a →
      ((l.set i b).map f).sum + f a = (l.map f).sum + f b := by
  intro l
  induction l with
  | nil => intro i a b h; cases h
  | cons x xs ih =>
    intro i a b h
    cases i with
    | zero =>
      simp only [List.getElem?_cons_zero, Option.some_inj] at h
      subst h
      simp only [List.set, List.map_cons, List.sum_cons]
      omega
    | succ n =>
      simp only [List.getElem?_cons_succ] at h
      simp only [List.set, List.map_cons, List.sum_cons]
      have := ih n a b h
      omega

theorem stepR_measure {limit : Nat} {s s' : TurnSt}
    (h : StepR limit s s') : sysMeasure limit s' < sysMeasure limit s := by
  obtain ⟨t, w, hc⟩ := h
  obtain ⟨hidle, hcase⟩ := stepFn_check_inv hc
  rcases hcase with ⟨hlim, -, rfl⟩ | ⟨hlim, hown, hact⟩ | ⟨hlim, -, -, rfl⟩
  · have hs := sum_map_set phRank s.phases t Phase.idle Phase.done hidle
    simp only [sysMeasure]
    simp only [phRank] at hs
    omega
  · rcases hact with ⟨u, -, hu, rfl⟩ | ⟨-, -, rfl⟩
    · have hs := sum_map_set phRank s.phases u Phase.blocked Phase.idle hu
      simp only [sysMeasure, actSt]
      simp only [phRank] at hs
      omega
    · simp only [sysMeasure, actSt]
      omega
  · have hs := sum_map_set phRank s.phases t Phase.idle Phase.blocked hidle
    simp only [sysMeasure]
    simp only [phRank] at hs
    omega

/-- On completion the shared counter is exactly `limit + 1`. -/
theorem allDone_pos {N limit : Nat} {s : TurnSt} (hN : 1 ≤ N)
    (hinv : SchedInv N limit s) (hd : AllDone s) : s.pos = limit + 1 := by
  have hlt : 0 < s.phases.length := by
    rw [hinv.len]; omega
  have hsome : s.phases[0]? = some s.phases[0] := List.getElem?_eq_getElem hlt
  have hmem : s.phases[0] ∈ s.phases := List.mem_iff_getElem?.mpr ⟨0, hsome⟩
  have hdone := hd _ hmem
  have h1 := hinv.done_pos 0 (by rw [hsome, hdone])
  have h2 := hinv.pos_le
  omega

theorem mod_succ_ne {N k : Nat} (hN : 2 ≤ N) : k % N ≠ (k + 1) % N := by
  intro h
  have h1 : (k + 1) % N = (k % N + 1) % N := (Nat.mod_add_mod k N 1).symm
  have h2 : k % N < N := Nat.mod_lt _ (by omega)
  by_cases h3 : k % N + 1 < N
  · rw [h1, Nat.mod_eq_of_lt h3] at h
    omega
  · have h4 : k % N + 1 = N := by omega
    rw [h1, h4, Nat.mod_self] at h
    omega

theorem rrSeq_getElem? {N m k : Nat} (h : k < m) :
    (rrSeq N m)[k]? = some (k % N, k + 1) := by
  unfold rrSeq
  rw [List.getElem?_map, List.getElem?_range h]
  rfl

/-- State of the busy-spin variant `10_Print_Odd_even.c`: the shared
`counter`, the two threads' phases (`blocked` is unused: there is no
condition variable), and the emitted (role, number) pairs.  Role 0 is
the thread started with `is_odd = 1`, role 1 the one with
`is_odd = 0`. -/
structure BusySt where
  counter : Nat
  phases : List Phase
  trace : List (Nat × Nat)
  deriving DecidableEq, Repr

/-- `counter = 1`, both threads running, nothing printed. -/
def busyInit : BusySt := ⟨1, [Phase.idle, Phase.idle], []⟩

/-- One pass of `print_numbers` (10, lines 12–26) through its critical
section (the whole loop body holds the lock): exit when
`counter > MAX`; print and increment when the counter's parity matches
the thread's role (`(counter % 2 == 1 && is_odd) ||
(counter % 2 == 0 && !is_odd)`); otherwise release the lock and spin. -/
def busyStepFn (limit t : Nat) (s : BusySt) : Option BusySt :=
  match s.phases[t]? with
  | some Phase.idle =>
    if limit < s.counter then
      some { s with phases := s.phases.set t Phase.done }
    else if (s.counter % 2 = 1 ∧ t = 0) ∨ (s.counter % 2 = 0 ∧ ¬ t = 0) then
      some { s with counter := s.counter + 1,
                    trace := s.trace ++ [(t, s.counter)] }
    else some s
  | _ => none

/-- A transition of the busy-spin system: some thread takes a pass. -/
def BusyStep (limit : Nat) (s s' : BusySt) : Prop :=
  ∃ t, busyStepFn limit t s = some s'

def BusyReach (limit : Nat) (s : BusySt) : Prop :=
  Relation.ReflTransGen (BusyStep limit) busyInit s

def BusyAllDone (s : BusySt) : Prop :=
  ∀ ph ∈ s.phases, ph = Phase.done

instance (s : BusySt) : Decidable (BusyAllDone s) := by
  unfold BusyAllDone; infer_instance

/-- Run a concrete schedule of the busy-spin system. -/
def busyRun (limit : Nat) (ts : List Nat) (s : BusySt) : Option BusySt :=
  match ts with
  | [] => some s
  | t :: rest =>
    match busyStepFn limit t s with
    | some s' => busyRun limit rest s'
    | none => none

theorem busyRun_reach {limit : Nat} :
    ∀ (ts : List Nat) (s s' : BusySt),
      busyRun limit ts s = some s' →
      Relation.ReflTransGen (BusyStep limit) s s' := by
  intro ts
  induction ts with
  | nil =>
    intro s s' h
    simp only [busyRun] at h
    cases h
    exact Relation.ReflTransGen.refl
  | cons t rest ih =>
    intro s s' h
    simp only [busyRun] at h
    cases hc : busyStepFn limit t s with
    | none => rw [hc] at h; cases h
    | some s1 =>
      rw [hc] at h
      exact Relation.ReflTransGen.head ⟨t, hc⟩ (ih s1 s' h)

theorem busyStepFn_inv {limit t : Nat} {s s' : BusySt}
    (h : busyStepFn limit t s = some s') :
    s.phases[t]? = some Phase.idle ∧
    ((limit < s.counter ∧
        s' = { s with phases := s.phases.set t Phase.done }) ∨
     (s.counter ≤ limit ∧
        ((s.counter % 2 = 1 ∧ t = 0) ∨ (s.counter % 2 = 0 ∧ ¬ t = 0)) ∧
        s' = { s with counter := s.counter + 1,
                      trace := s.trace ++ [(t, s.counter)] }) ∨
     (s.counter ≤ limit ∧
        ¬ ((s.counter % 2 = 1 ∧ t = 0) ∨ (s.counter % 2 = 0 ∧ ¬ t = 0)) ∧
        s' = s)) := by
  simp only [busyStepFn] at h
  cases hp : s.phases[t]? with
  | none => rw [hp] at h; dsimp only at h; cases h
  | some ph =>
    rw [hp] at h
    cases ph with
    | blocked => dsimp only at h; cases h
    | done => dsimp only at h; cases h
    | idle =>
      dsimp only at h
      refine ⟨rfl, ?_⟩
      by_cases hlim : limit < s.counter
      · rw [if_pos hlim] at h
        cases h
        exact Or.inl ⟨hlim, rfl⟩
      · rw [if_neg hlim] at h
        by_cases hg : (s.counter % 2 = 1 ∧ t = 0) ∨ (s.counter % 2 = 0 ∧ ¬ t = 0)
        · rw [if_pos hg] at h
          cases h
          exact Or.inr (Or.inl ⟨by omega, hg, rfl⟩)
        · rw [if_neg hg] at h
          cases h
          exact Or.inr (Or.inr ⟨by omega, hg, rfl⟩)

/-- Invariant of the busy-spin variant: same shape as the
condition-variable one — in particular the emitted trace is already the
round-robin prefix determined by the counter, because the parity guard
`counter % 2` selects exactly the round-robin role. -/
structure BusyInv (limit : Nat) (s : BusySt) : Prop where
  len : s.phases.length = 2
  cnt_ge : 1 ≤ s.counter
  cnt_le : s.counter ≤ limit + 1
  trace_eq : s.trace = rrSeq 2 (s.counter - 1)
  done_cnt : ∀ t : Nat, s.phases[t]? = some Phase.done → limit < s.counter

theorem busyInv_init (limit : Nat) : BusyInv limit busyInit := by
  refine ⟨rfl, le_refl 1, Nat.succ_le_succ (Nat.zero_le limit), rfl, ?_⟩
  intro t h
  have : t < 2 := by
    have := (List.getElem?_eq_some.mp h).1
    simpa [busyInit] using this
  interval_cases t <;> simp [busyInit] at h

theorem busyInv_step {limit : Nat} {s s' : BusySt}
    (hinv : BusyInv limit s) (h : BusyStep limit s s') : BusyInv limit s' := by
  obtain ⟨t, hc⟩ := h
  obtain ⟨hidle, hcase⟩ := busyStepFn_inv hc
  have htlen : t < s.phases.length := (List.getElem?_eq_some.mp hidle).1
  rcases hcase with ⟨hlim, rfl⟩ | ⟨hlim, hg, rfl⟩ | ⟨hlim, -, rfl⟩
  · refine ⟨by simpa using hinv.len, hinv.cnt_ge, hinv.cnt_le,
      hinv.trace_eq, ?_⟩
    intro t' h'
    by_cases ht : t = t'
    · exact hlim
    · rw [List.getElem?_set_ne ht] at h'
      exact hinv.done_cnt t' h'
  · have hge := hinv.cnt_ge
    have ht2 : t < 2 := by
      have := hinv.len
      omega
    have hrole : t = (s.counter - 1) % 2 := by
      rcases hg with ⟨ho, rfl⟩ | ⟨he, hne⟩ <;> omega
    have htrace : s.trace ++ [(t, s.counter)] =
        rrSeq 2 (s.counter + 1 - 1) := by
      have he : s.counter + 1 - 1 = (s.counter - 1) + 1 := by omega
      rw [he, hinv.trace_eq]
      unfold rrSeq
      rw [List.range_succ, List.map_append]
      simp only [List.map_cons, List.map_nil]
      have hc1 : s.counter - 1 + 1 = s.counter := by omega
      rw [hrole, hc1]
    refine ⟨hinv.len, ?_, ?_, htrace, ?_⟩
    · show 1 ≤ s.counter + 1
      omega
    · show s.counter + 1 ≤ limit + 1
      omega
    · intro t' h'
      have := hinv.done_cnt t' h'
      omega
  · exact hinv

theorem busyReach_inv {limit : Nat} {s : BusySt}
    (h : BusyReach limit s) : BusyInv limit s := by
  induction h with
  | refl => exact busyInv_init limit
  | tail _ hstep ih => exact busyInv_step ih hstep

/-- On completion of the busy-spin variant the counter is `limit + 1`. -/
theorem busyAllDone_cnt {limit : Nat} {s : BusySt}
    (hinv : BusyInv limit s) (hd : BusyAllDone s) : s.counter = limit + 1 := by
  have hlt : 0 < s.phases.length := by
    rw [hinv.len]; omega
  have hsome : s.phases[0]? = some s.phases[0] := List.getElem?_eq_getElem hlt
  have hmem : s.phases[0] ∈ s.phases := List.mem_iff_getElem?.mpr ⟨0, hsome⟩
  have hdone := hd _ hmem
  have h1 := hinv.done_cnt 0 (by rw [hsome, hdone])
  have h2 := hinv.cnt_le
  omega

/-- Every completed execution of the condition-variable scheduler emits
exactly the round-robin sequence truncated at `limit`. -/
theorem completed_trace {N limit : Nat} {s : TurnSt} (hN : 1 ≤ N)
    (hr : ReachC N limit s) (hd : AllDone s) : s.trace = rrSeq N limit := by
  have hinv := reach_inv hr
  have hpos := allDone_pos hN hinv hd
  rw [hinv.trace_eq, hpos]
  simp

/-- Every completed execution of the busy-spin variant emits exactly the
round-robin sequence truncated at `limit`. -/
theorem busy_completed_trace {limit : Nat} {s : BusySt}
    (hr : BusyReach limit s) (hd : BusyAllDone s) :
    s.trace = rrSeq 2 limit := by
  have hinv := busyReach_inv hr
  have hcnt := busyAllDone_cnt hinv hd
  rw [hinv.trace_eq, hcnt]
  simp

/-- If no thread is idle, no real transition is enabled. -/
theorem noIdle_stuckR {limit : Nat} {s : TurnSt}
    (h : ∀ ph ∈ s.phases, ph ≠ Phase.idle) : StuckR limit s := by
  intro s' hs
  obtain ⟨t, w, hc⟩ := hs
  obtain ⟨hidle, -⟩ := stepFn_check_inv hc
  exact h _ (List.mem_iff_getElem?.mpr ⟨t, hidle⟩) rfl

/-- Startup error kinds observable in the `main` functions of 11/12. -/
inductive StartErr where
  | fileOpenFailed
  | lockInitFailed
  deriving DecidableEq, Repr

/-- Startup outcome: abort (`return 1`) before creating any thread, or
launch both participant threads. -/
inductive StartOutcome where
  | aborted (e : StartErr)
  | launched
  deriving DecidableEq, Repr

/-- Environment of `main` of `11_ABCDabcdWiteFile.c`: whether `fopen`
and `pthread_mutex_init` succeed. -/
structure Env11 where
  fopenOk : Bool
  mutexInitOk : Bool
  deriving DecidableEq, Repr

/-- `main` of `11_ABCDabcdWiteFile.c` (lines 31–49): `fopen` is checked
(`perror` and `return 1`), then `pthread_mutex_init` is checked
(`perror` and `return 1`), and only then are the two threads created;
neither failure is retried. -/
def main11 (e : Env11) : StartOutcome :=
  if ¬ e.fopenOk then StartOutcome.aborted StartErr.fileOpenFailed
  else if ¬ e.mutexInitOk then StartOutcome.aborted StartErr.lockInitFailed
  else StartOutcome.launched

/-- Environment of `main` of `12_ABCDabcdWiteFileSync.c`: whether
`fopen`, `pthread_mutex_init` and `pthread_cond_init` succeed. -/
structure Env12 where
  fopenOk : Bool
  mutexInitOk : Bool
  condInitOk : Bool
  deriving DecidableEq, Repr

/-- `main` of `12_ABCDabcdWiteFileSync.c` (lines 41–54): `fopen` is
checked (`perror` and `return 1`), but the return values of
`pthread_mutex_init` and `pthread_cond_init` (lines 50–51) are ignored;
the threads are created regardless of lock/condition construction
failure. -/
def main12 (e : Env12) : StartOutcome :=
  if ¬ e.fopenOk then StartOutcome.aborted StartErr.fileOpenFailed
  else StartOutcome.launched

/-- Canonical two-thread schedule: the owner acts `L` times (no thread
ever blocks), then both threads exit. -/
def canonChoices (L : Nat) : List Choice :=
  ((List.range L).map (fun k => Choice.check (k % 2) none)) ++
    [Choice.check 0 none, Choice.check 1 none]

/-- Final state of the completed N = 2, limit = 100 run: the odd/even
instance of 09 (`counter = 101`, both threads exited, trace
`1..100` in round-robin role order, one signal per step). -/
def wCV100 : TurnSt :=
  ⟨101, 0, [Phase.done, Phase.done], rrSeq 2 100,
    List.replicate 100 NotifyKind.one⟩

set_option maxRecDepth 10000 in
theorem wCV100_run :
    runChoices 100 (canonChoices 100) (init 2) = some wCV100 := by
  decide

theorem wCV100_reach : ReachC 2 100 wCV100 :=
  runChoices_reach _ _ _ wCV100_run

/-- Final state of the completed N = 2, limit = 2 run. -/
def wCV2 : TurnSt :=
  ⟨3, 0, [Phase.done, Phase.done], rrSeq 2 2,
    List.replicate 2 NotifyKind.one⟩

theorem wCV2_run : runChoices 2 (canonChoices 2) (init 2) = some wCV2 := by
  decide

theorem wCV2_reach : ReachC 2 2 wCV2 :=
  runChoices_reach _ _ _ wCV2_run

/-- A second, genuinely different schedule for limit = 2: the even
thread blocks first, the odd thread's signal wakes it, then both exit. -/
def altChoices2 : List Choice :=
  [Choice.check 1 none, Choice.check 0 (some 1), Choice.check 1 none,
   Choice.check 0 none, Choice.check 1 none]

theorem wCV2_run_alt : runChoices 2 altChoices2 (init 2) = some wCV2 := by
  decide

theorem wCV2_reach_alt : ReachC 2 2 wCV2 :=
  runChoices_reach _ _ _ wCV2_run_alt

theorem wCV2_stuck : StuckR 2 wCV2 :=
  noIdle_stuckR (by decide)

/-- State after the first (and only) step of the two-thread, limit = 1
instance: the step that drives `pos` past the limit. -/
def wTerm : TurnSt :=
  ⟨2, 1, [Phase.idle, Phase.idle], [(0, 1)], [NotifyKind.one]⟩

/-- State after thread 0 subsequently takes the terminal exit. -/
def wTermExit : TurnSt :=
  ⟨2, 1, [Phase.done, Phase.idle], [(0, 1)], [NotifyKind.one]⟩

/-- A state with the even thread suspended, and the state after its
spurious wake-up. -/
def wBlocked : TurnSt := ⟨1, 0, [Phase.idle, Phase.blocked], [], []⟩

def wSpur : TurnSt := ⟨1, 0, [Phase.idle, Phase.idle], [], []⟩

/-- Three roles, limit = 1: threads 1 and 2 suspend, thread 0 acts (its
single signal wakes thread 1 only), threads 0 and 1 exit; thread 2 is
left suspended with no further real transition. -/
def deadChoices : List Choice :=
  [Choice.check 1 none, Choice.check 2 none, Choice.check 0 (some 1),
   Choice.check 0 none, Choice.check 1 none]

def wDead : TurnSt :=
  ⟨2, 1, [Phase.done, Phase.done, Phase.blocked], [(0, 1)],
    [NotifyKind.one]⟩

theorem wDead_run : runChoices 1 deadChoices (init 3) = some wDead := by
  decide

theorem wDead_stuck : StuckR 1 wDead :=
  noIdle_stuckR (by decide)

/-- Canonical busy-spin schedule: the matching thread acts `L` times,
then both threads exit. -/
def busyCanon (L : Nat) : List Nat :=
  ((List.range L).map (fun k => k % 2)) ++ [0, 1]

/-- Final state of the completed busy-spin run with `MAX = 100`. -/
def wBusy100 : BusySt := ⟨101, [Phase.done, Phase.done], rrSeq 2 100⟩

set_option maxRecDepth 10000 in
theorem wBusy100_run : busyRun 100 (busyCanon 100) busyInit = some wBusy100 := by
  decide

theorem wBusy100_reach : BusyReach 100 wBusy100 :=
  busyRun_reach _ _ _ wBusy100_run

/-- C1: for every N ≥ 2 and limit ≥ 0, the sequence of (role,
step-index) pairs emitted by the scheduler, ordered by completion, in
every completed execution is exactly the round-robin sequence over roles
0..N-1 repeated cyclically and truncated at `limit` entries; in
particular, the two-role odd/even instance with limit = 100 emits
`(k mod 2, k + 1)` for k = 0..99 — the values 1..100 in order,
alternating between the odd role (role 0) and the even role (role 1),
starting with the odd role. -/
theorem C1_round_robin :
    (∀ N limit : Nat, 2 ≤ N → ∀ s : TurnSt, ReachC N limit s →
       AllDone s → s.trace = rrSeq N limit) ∧
    (∀ s : TurnSt, ReachC 2 100 s → AllDone s → s.trace = rrSeq 2 100) :=
  ⟨fun _ _ hN _ hr hd => completed_trace (by omega) hr hd,
   fun _ hr hd => completed_trace (by omega) hr hd⟩

theorem C1_round_robin_w : wCV100.trace = rrSeq 2 100 :=
  C1_round_robin.2 wCV100 wCV100_reach (by decide)

/-- C2 counterexample: in the two-thread, limit = 1 instance, the
transition into the terminal state (`pos` moving from 1 past the limit)
issues exactly one notify-one (`pthread_cond_signal`, line 29 of 09) and
no notify-all (`pthread_cond_broadcast` never occurs anywhere in the
source), refuting the claim that a notify-all is issued there. -/
theorem C2_notify_all_cex :
    stepFn 1 (Choice.check 0 none) (init 2) = some wTerm ∧
    1 < wTerm.pos ∧ wTerm.events = [NotifyKind.one] ∧
    NotifyKind.all ∉ wTerm.events := by
  refine ⟨by decide, by decide, rfl, by decide⟩

/-- C2 amended: on the transition into the terminal state exactly one
notification is issued and it is a notify-one (`pthread_cond_signal`),
never a notify-all: in every reachable state the notification history is
exactly one notify-one per completed step and contains no notify-all;
every completed step (including the one that first exceeds `limit`)
appends exactly one notify-one; and the terminal exit path issues no
notification at all. -/
theorem C2_notify_one :
    (∀ N limit : Nat, ∀ s : TurnSt, ReachC N limit s →
       s.events = List.replicate (s.pos - 1) NotifyKind.one ∧
       NotifyKind.all ∉ s.events) ∧
    (∀ limit : Nat, ∀ s s' : TurnSt, ∀ t : Nat, ∀ w : Option Nat,
       stepFn limit (Choice.check t w) s = some s' → s.owner = t →
       s.pos ≤ limit → s'.events = s.events ++ [NotifyKind.one]) ∧
    (∀ limit : Nat, ∀ s s' : TurnSt, ∀ t : Nat, ∀ w : Option Nat,
       stepFn limit (Choice.check t w) s = some s' → limit < s.pos →
       s'.events = s.events) := by
  refine ⟨?_, ?_, ?_⟩
  · intro N limit s hr
    have hinv := reach_inv hr
    refine ⟨hinv.events_eq, ?_⟩
    rw [hinv.events_eq]
    intro hmem
    cases List.eq_of_mem_replicate hmem
  · intro limit s s' t w hc hown hlim
    obtain ⟨-, hcase⟩ := stepFn_check_inv hc
    rcases hcase with ⟨h1, -, rfl⟩ | ⟨-, -, hact⟩ | ⟨-, h2, -, rfl⟩
    · omega
    · rcases hact with ⟨u, -, -, rfl⟩ | ⟨-, -, rfl⟩ <;> rfl
    · exact absurd hown h2
  · intro limit s s' t w hc hlim
    obtain ⟨-, hcase⟩ := stepFn_check_inv hc
    rcases hcase with ⟨-, -, rfl⟩ | ⟨h1, -, -⟩ | ⟨h1, -, -, rfl⟩
    · rfl
    · omega
    · omega

theorem C2_notify_one_w :
    (wCV2.events = List.replicate (wCV2.pos - 1) NotifyKind.one ∧
     NotifyKind.all ∉ wCV2.events) ∧
    wTerm.events = (init 2).events ++ [NotifyKind.one] ∧
    wTermExit.events = wTerm.events :=
  ⟨C2_notify_one.1 2 2 wCV2 wCV2_reach,
   C2_notify_one.2.1 1 (init 2) wTerm 0 none (by decide) rfl (by decide),
   C2_notify_one.2.2 1 wTerm wTermExit 0 none (by decide) (by decide)⟩

/-- C3: in every reachable state of the scheduler, `current_owner`
makes exactly one participant eligible to act (the unique role in
`0..N-1` equal to it); every completed step — one atomic transition of
the model, since the whole loop body holds the mutex — transfers
ownership to `(my_role + 1) mod N`, increments `sequence_position` by
exactly one, and appends exactly its own step index to the trace, which
stays the gap-free, repetition-free round-robin sequence. -/
theorem C3_ownership (N limit : Nat) (hN : 2 ≤ N) :
    (∀ s : TurnSt, ReachC N limit s →
       (∃! r : Nat, r < N ∧ s.owner = r) ∧
       s.trace = rrSeq N (s.pos - 1)) ∧
    (∀ s s' : TurnSt, ∀ t : Nat, ∀ w : Option Nat, ReachC N limit s →
       stepFn limit (Choice.check t w) s = some s' → s.owner = t →
       s.pos ≤ limit →
       s'.owner = (t + 1) % N ∧ s'.pos = s.pos + 1 ∧
       s'.trace = s.trace ++ [(t, s.pos)]) := by
  constructor
  · intro s hr
    have hinv := reach_inv hr
    have hlt : s.owner < N := by
      rw [hinv.owner_eq]
      exact Nat.mod_lt _ (by omega)
    exact ⟨⟨s.owner, ⟨hlt, rfl⟩, fun y hy => hy.2.symm⟩, hinv.trace_eq⟩
  · intro s s' t w hr hc hown hlim
    have hinv := reach_inv hr
    obtain ⟨hidle, hcase⟩ := stepFn_check_inv hc
    rcases hcase with ⟨h1, -, rfl⟩ | ⟨h1, -, hact⟩ | ⟨h1, h2, -, rfl⟩
    · omega
    · rcases hact with ⟨u, -, -, rfl⟩ | ⟨-, -, rfl⟩ <;>
        exact ⟨by show (t + 1) % s.phases.length = (t + 1) % N;
                  rw [hinv.len], rfl, rfl⟩
    · exact absurd hown h2

theorem C3_ownership_w :
    ((∃! r : Nat, r < 2 ∧ wCV2.owner = r) ∧
      wCV2.trace = rrSeq 2 (wCV2.pos - 1)) ∧
    (wTerm.owner = (0 + 1) % 2 ∧ wTerm.pos = (init 2).pos + 1 ∧
     wTerm.trace = (init 2).trace ++ [(0, (init 2).pos)]) :=
  ⟨(C3_ownership 2 2 (by omega)).1 wCV2 wCV2_reach,
   (C3_ownership 2 2 (by omega)).2 (init 2) wTerm 0 none
     Relation.ReflTransGen.refl (by decide) rfl (by decide)⟩

/-- C4 counterexample: with three roles and limit = 1 (a limit that is
not a multiple of N), under the source's notification discipline
(notify-one on each completed step, nothing on the terminal exit) there
is an execution — schedule `deadChoices` — after which `pos` has passed
the limit, threads 0 and 1 have exited, but thread 2 is still suspended
and no real transition is enabled: a suspended task remains blocked
forever after the terminal transition, so not all N tasks terminate. -/
theorem C4_termination_cex :
    runChoices 1 deadChoices (init 3) = some wDead ∧
    1 < wDead.pos ∧ wDead.phases[2]? = some Phase.blocked ∧
    ¬ AllDone wDead ∧ StuckR 1 wDead :=
  ⟨wDead_run, by decide, by decide, by decide, wDead_stuck⟩

/-- C4 amended (restricted to the two-participant instances that the
source actually runs): for N = 2 and every limit ≥ 0 — including
limit = 0 and odd limits — the scheduler cannot get stuck: in every
reachable state in which no real transition is enabled both tasks have
already exited (so the join barrier returns), and every real transition
strictly decreases a natural-number measure, so every execution without
spurious wake-ups reaches that all-done state in a bounded number of
transitions.  (For N ≥ 3 the claim fails, see the counterexample.) -/
theorem C4_termination_two (limit : Nat) :
    (∀ s : TurnSt, ReachC 2 limit s → StuckR limit s → AllDone s) ∧
    (∀ s s' : TurnSt, StepR limit s s' →
       sysMeasure limit s' < sysMeasure limit s) :=
  ⟨fun _ hr hstuck => stuck_allDone hr hstuck,
   fun _ _ h => stepR_measure h⟩

theorem C4_termination_two_w :
    AllDone wCV2 ∧ sysMeasure 2 wTerm < sysMeasure 2 (init 2) :=
  ⟨(C4_termination_two 2).1 wCV2 wCV2_reach wCV2_stuck,
   (C4_termination_two 2).2 (init 2) wTerm ⟨0, none, by decide⟩⟩

/-- C5: a wake-up delivered to a waiting participant whose guard
(`current_owner = my_role ∧ sequence_position ≤ limit`) does not hold
never causes a step out of turn: in any state — including every state of
executions with spurious wake-ups — a transition that extends the trace
can only be a critical-section pass by the thread that owns the turn
with `pos ≤ limit` (the while-guard is re-evaluated on every pass), and
a spurious wake-up itself changes no shared state: the woken thread only
re-enters the guard check. -/
theorem C5_guard_recheck (limit : Nat) :
    (∀ s s' : TurnSt, ∀ c : Choice, stepFn limit c s = some s' →
       s'.trace ≠ s.trace →
       ∃ t w, c = Choice.check t w ∧ s.owner = t ∧ s.pos ≤ limit ∧
         s.phases[t]? = some Phase.idle) ∧
    (∀ s s' : TurnSt, ∀ t : Nat, stepFn limit (Choice.spur t) s = some s' →
       s'.trace = s.trace ∧ s'.pos = s.pos ∧ s'.owner = s.owner) := by
  constructor
  · intro s s' c hc htr
    cases c with
    | spur t =>
      obtain ⟨-, rfl⟩ := stepFn_spur_inv hc
      exact absurd rfl htr
    | check t w =>
      obtain ⟨hidle, hcase⟩ := stepFn_check_inv hc
      rcases hcase with ⟨-, -, rfl⟩ | ⟨hlim, hown, hact⟩ | ⟨-, -, -, rfl⟩
      · exact absurd rfl htr
      · exact ⟨t, w, rfl, hown, hlim, hidle⟩
      · exact absurd rfl htr
  · intro s s' t hc
    obtain ⟨-, rfl⟩ := stepFn_spur_inv hc
    exact ⟨rfl, rfl, rfl⟩

theorem C5_guard_recheck_w :
    (∃ t w, Choice.check 0 none = Choice.check t w ∧ (init 2).owner = t ∧
       (init 2).pos ≤ 1 ∧ (init 2).phases[t]? = some Phase.idle) ∧
    (wSpur.trace = wBlocked.trace ∧ wSpur.pos = wBlocked.pos ∧
     wSpur.owner = wBlocked.owner) :=
  ⟨(C5_guard_recheck 1).1 (init 2) wTerm (Choice.check 0 none)
     (by decide) (by decide),
   (C5_guard_recheck 1).2 wBlocked wSpur 1 (by decide)⟩

/-- C6: after all participant tasks have completed,
`sequence_position` equals exactly `limit + 1`; it is reached exactly
once because the counter never decreases and every transition increments
it by zero or exactly one (so no value — in particular `limit + 1` — is
skipped over or attained twice); for the odd/even instance with
limit = 100 the shared counter ends at 101. -/
theorem C6_final_pos :
    (∀ N limit : Nat, 1 ≤ N → ∀ s : TurnSt, ReachC N limit s →
       AllDone s → s.pos = limit + 1) ∧
    (∀ limit : Nat, ∀ s s' : TurnSt, StepC limit s s' →
       s'.pos = s.pos ∨ s'.pos = s.pos + 1) ∧
    (∀ s : TurnSt, ReachC 2 100 s → AllDone s → s.pos = 101) := by
  refine ⟨?_, ?_, ?_⟩
  · intro N limit hN s hr hd
    exact allDone_pos hN (reach_inv hr) hd
  · intro limit s s' hstep
    obtain ⟨c, hc⟩ := hstep
    cases c with
    | spur t =>
      obtain ⟨-, rfl⟩ := stepFn_spur_inv hc
      exact Or.inl rfl
    | check t w =>
      obtain ⟨-, hcase⟩ := stepFn_check_inv hc
      rcases hcase with ⟨-, -, rfl⟩ | ⟨-, -, hact⟩ | ⟨-, -, -, rfl⟩
      · exact Or.inl rfl
      · rcases hact with ⟨u, -, -, rfl⟩ | ⟨-, -, rfl⟩ <;> exact Or.inr rfl
      · exact Or.inl rfl
  · intro s hr hd
    exact allDone_pos (by omega) (reach_inv hr) hd

theorem C6_final_pos_w :
    wCV2.pos = 2 + 1 ∧
    (wTerm.pos = (init 2).pos ∨ wTerm.pos = (init 2).pos + 1) ∧
    wCV100.pos = 101 :=
  ⟨C6_final_pos.1 2 2 (by omega) wCV2 wCV2_reach (by decide),
   C6_final_pos.2.1 1 (init 2) wTerm ⟨Choice.check 0 none, by decide⟩,
   C6_final_pos.2.2 wCV100 wCV100_reach (by decide)⟩

/-- C7: for every N ≥ 2, in every execution (spurious wake-ups
included) no role executes two steps consecutively: adjacent entries of
the emitted trace always carry different roles. -/
theorem C7_no_two_in_a_row (N limit : Nat) (hN : 2 ≤ N) :
    ∀ s : TurnSt, ReachC N limit s → ∀ k r1 p1 r2 p2 : Nat,
      s.trace[k]? = some (r1, p1) → s.trace[k + 1]? = some (r2, p2) →
      r1 ≠ r2 := by
  intro s hr k r1 p1 r2 p2 h1 h2
  have hinv := reach_inv hr
  rw [hinv.trace_eq] at h1 h2
  have hk1 : k + 1 < s.pos - 1 := by
    have := (List.getElem?_eq_some.mp h2).1
    simpa [rrSeq] using this
  have hk : k < s.pos - 1 := by omega
  rw [rrSeq_getElem? hk] at h1
  rw [rrSeq_getElem? hk1] at h2
  simp only [Option.some_inj, Prod.mk.injEq] at h1 h2
  rw [← h1.1, ← h2.1]
  exact mod_succ_ne hN

theorem C7_no_two_in_a_row_w :
    wCV2.trace[0]? = some (0, 1) ∧ wCV2.trace[1]? = some (1, 2) ∧
    (0 : Nat) ≠ 1 :=
  ⟨by decide, by decide,
   C7_no_two_in_a_row 2 2 (by omega) wCV2 wCV2_reach 0 0 1 1 2
     (by decide) (by decide)⟩

/-- C8: the ordered output of a completed run is a deterministic
function of (N, limit) alone: any two completed executions with the same
parameters — whatever the interleaving, wake choices and spurious
wake-ups — emit identical ordered traces. -/
theorem C8_deterministic (N limit : Nat) (hN : 2 ≤ N) :
    ∀ s s' : TurnSt, ReachC N limit s → AllDone s →
      ReachC N limit s' → AllDone s' → s.trace = s'.trace := by
  intro s s' h1 h2 h3 h4
  rw [completed_trace (by omega) h1 h2, completed_trace (by omega) h3 h4]

theorem C8_deterministic_w : wCV2.trace = wCV2.trace :=
  C8_deterministic 2 2 (by omega) wCV2 wCV2 wCV2_reach (by decide)
    wCV2_reach_alt (by decide)

/-- C9 counterexample: in `12_ABCDabcdWiteFileSync.c` the results of
`pthread_mutex_init`/`pthread_cond_init` are not checked (lines 50–51):
with `fopen` succeeding and lock construction failing, `main` still
launches both participant threads instead of aborting.  Moreover
file-open failure (11 line 36, 12 line 45) is a second fatal startup
error kind besides primitive construction failure. -/
theorem C9_startup_cex :
    main12 ⟨true, false, true⟩ = StartOutcome.launched ∧
    main12 ⟨true, false, true⟩ ≠ StartOutcome.aborted StartErr.lockInitFailed ∧
    main11 ⟨false, true⟩ = StartOutcome.aborted StartErr.fileOpenFailed := by
  refine ⟨rfl, by decide, rfl⟩

/-- C9 amended: in variant 11 startup aborts — without retry and before
any thread is created — exactly when `fopen` or `pthread_mutex_init`
fails, so lock-construction failure is fatal there but file-open failure
is a second fatal startup error kind; variant 12 checks only `fopen` and
launches its threads regardless of the lock/condition construction
results. -/
theorem C9_startup :
    (∀ e : Env11, main11 e = StartOutcome.launched ↔
       e.fopenOk = true ∧ e.mutexInitOk = true) ∧
    (∀ e : Env11, e.fopenOk = true → e.mutexInitOk = false →
       main11 e = StartOutcome.aborted StartErr.lockInitFailed) ∧
    (∀ e : Env12, main12 e = StartOutcome.launched ↔ e.fopenOk = true) := by
  refine ⟨?_, ?_, ?_⟩
  · intro e
    rcases e with ⟨f, m⟩
    cases f <;> cases m <;> simp [main11]
  · intro e hf hm
    rcases e with ⟨f, m⟩
    cases hf
    cases hm
    rfl
  · intro e
    rcases e with ⟨f, m, c⟩
    cases f <;> simp [main12]

theorem C9_startup_w :
    main11 ⟨true, false⟩ = StartOutcome.aborted StartErr.lockInitFailed :=
  C9_startup.2.1 ⟨true, false⟩ rfl rfl

/-- C10: the busy-spin odd/even variant (10) produces in every completed
execution the same ordered output as the condition-variable variant
(09, the N = 2, limit = 100 instance): the numbers 1 through 100 in
increasing order, odd numbers emitted by role 0 (the `is_odd` thread)
and even numbers by role 1. -/
theorem C10_busy_equiv :
    ∀ s : BusySt, ∀ s' : TurnSt, BusyReach 100 s → BusyAllDone s →
      ReachC 2 100 s' → AllDone s' →
      s.trace = s'.trace ∧ s.trace = rrSeq 2 100 := by
  intro s s' h1 h2 h3 h4
  have hb := busy_completed_trace h1 h2
  have hc := completed_trace (by omega) h3 h4
  rw [hb, hc]
  exact ⟨rfl, rfl⟩

theorem C10_busy_equiv_w :
    wBusy100.trace = wCV100.trace ∧ wBusy100.trace = rrSeq 2 100 :=
  C10_busy_equiv wBusy100 wCV100 wBusy100_reach (by decide)
    wCV100_reach (by decide)
